import Mathlib

/-!
Shallow embedding of `src/gauss_elimination_cplus.cpp`: a Gaussian
elimination solver with partial pivoting.  The C program's `double`
values are modelled as rationals (`ℚ`); the global arrays `matrix` and
`B` become total functions `ℕ → ℕ → ℚ` and `ℕ → ℚ` carried in a state
record (entries outside the active `nsize × nsize` window play the role
of uninitialized memory and are never read by the algorithm's loops).
`exit(-1)` on a singular pivot column is modelled by `Option`: `none`
is the fatal singular-matrix exit.
-/

attribute [local semireducible] Rat.mul Rat.add Rat.sub Rat.inv

/-- The global mutable state of the solver: the coefficient matrix
`matrix` and the right-hand-side vector `B` of the C program. -/
@[ext]
structure SysState where
  A : ℕ → ℕ → ℚ
  B : ℕ → ℚ

/-- `ABS` macro from the source: `(((a) > 0) ? (a) : -(a))`. -/
def ABS (a : ℚ) : ℚ := if a > 0 then a else -a

/-- `initMatrix`: `matrix[i][j] = ((j < i) ? 2*(j+1) : 2*(i+1))` and
`B[i] = (double)i`, for `0 ≤ i, j < nsize`; entries outside that window
keep their previous (uninitialized) values. -/
def initMatrix (nsize : ℕ) (s : SysState) : SysState :=
  { A := fun i j =>
      if i < nsize ∧ j < nsize then (if j < i then 2 * (j + 1) else 2 * (i + 1)) else s.A i j,
    B := fun i => if i < nsize then (i : ℚ) else s.B i }

/-- The scan loop of `getPivot`: running over the remaining row indices
with accumulator `(irow, big)`, replace the accumulator whenever
`ABS(matrix[i][currow]) > big`. -/
def findPivotAux (A : ℕ → ℕ → ℚ) (currow irow : ℕ) (big : ℚ) : List ℕ → ℕ × ℚ
  | [] => (irow, big)
  | i :: rest =>
      let tmp := ABS (A i currow)
      if tmp > big then findPivotAux A currow i tmp rest
      else findPivotAux A currow irow big rest

/-- The pivot search of `getPivot`: start from `irow = currow`,
`big = ABS(matrix[currow][currow])`, and scan rows `currow+1 .. nsize-1`. -/
def findPivot (nsize currow : ℕ) (A : ℕ → ℕ → ℚ) : ℕ × ℚ :=
  findPivotAux A currow currow (ABS (A currow currow)) (List.range' (currow + 1) (nsize - (currow + 1)))

/-- `PSWAP(matrix[irow], matrix[currow])` together with
`DSWAP(B[irow], B[currow])`: exchange two whole matrix rows (by pointer
swap in the source) and the matching right-hand-side entries. -/
def swapRows (a b : ℕ) (s : SysState) : SysState :=
  { A := fun i j => if i = a then s.A b j else if i = b then s.A a j else s.A i j,
    B := fun i => if i = a then s.B b else if i = b then s.B a else s.B i }

/-- The normalization tail of `getPivot`: with `pivotVal = matrix[currow][currow]`,
if `pivotVal ≠ 1.0` set `matrix[currow][currow] = 1.0`, divide
`matrix[currow][i]` by `pivotVal` for `currow+1 ≤ i < nsize`, and divide
`B[currow]` by `pivotVal`; otherwise leave the state unchanged. -/
def normalizeRow (nsize currow : ℕ) (s : SysState) : SysState :=
  let pivotVal := s.A currow currow
  if pivotVal ≠ 1 then
    { A := fun i j =>
        if i = currow then
          if j = currow then 1
          else if currow + 1 ≤ j ∧ j < nsize then s.A i j / pivotVal
          else s.A i j
        else s.A i j,
      B := fun i => if i = currow then s.B i / pivotVal else s.B i }
  else s

/-- `getPivot`: find the pivot row for column `currow`; if the largest
absolute value is `0.0` the matrix is singular and the program exits
(modelled as `none`); otherwise swap the pivot row into place when it
differs from `currow` and normalize the pivot row. -/
def getPivot (nsize currow : ℕ) (s : SysState) : Option SysState :=
  let p := findPivot nsize currow s.A
  if p.2 = 0 then none
  else
    let s1 := if p.1 ≠ currow then swapRows p.1 currow s else s
    some (normalizeRow nsize currow s1)

/-- One iteration of the innermost loop of `computeGauss`:
`matrix[j][k] -= pivotVal * matrix[i][k]`. -/
def elimColsStep (i j : ℕ) (pivotVal : ℚ) (t : SysState) (k : ℕ) : SysState :=
  { t with A := fun r c => if r = j ∧ c = k then t.A j k - pivotVal * t.A i k else t.A r c }

/-- One row update of the elimination inner loop in `computeGauss`:
`pivotVal = matrix[j][i]`, `matrix[j][i] = 0.0`, then
`matrix[j][k] -= pivotVal * matrix[i][k]` for `i+1 ≤ k < nsize`, then
`B[j] -= pivotVal * B[i]`. -/
def elimRow (nsize i j : ℕ) (s : SysState) : SysState :=
  let pivotVal := s.A j i
  let s1 : SysState := { s with A := fun r c => if r = j ∧ c = i then 0 else s.A r c }
  let s2 := (List.range' (i + 1) (nsize - (i + 1))).foldl (elimColsStep i j pivotVal) s1
  { s2 with B := fun r => if r = j then s2.B r - pivotVal * s2.B i else s2.B r }

/-- The elimination loop body of `computeGauss` for one pivot step `i`:
update every row `j` with `i+1 ≤ j < nsize`. -/
def elimBelow (nsize i : ℕ) (s : SysState) : SysState :=
  (List.range' (i + 1) (nsize - (i + 1))).foldl (fun t j => elimRow nsize i j t) s

/-- The outer loop of `computeGauss` over the listed pivot steps:
`getPivot` (propagating the fatal singular exit) then the elimination
of all rows below. -/
def gaussAux (nsize : ℕ) (s : SysState) : List ℕ → Option SysState
  | [] => some s
  | i :: rest =>
      match getPivot nsize i s with
      | none => none
      | some s1 => gaussAux nsize (elimBelow nsize i s1) rest

/-- `computeGauss`: for `i = 0 .. nsize-1`, get the pivot and eliminate
below it. -/
def computeGauss (nsize : ℕ) (s : SysState) : Option SysState :=
  gaussAux nsize s (List.range nsize)

/-- The inner loop of `solveGauss` for one row: running `m` iterations
with column index counting down from `row + m` to `row + 1`, subtract
`matrix[row][col] * C[col]` from the accumulator. -/
def backSubCols (s : SysState) (C : ℕ → ℚ) (row : ℕ) : ℕ → ℚ → ℚ
  | 0, acc => acc
  | m + 1, acc => backSubCols s C row m (acc - s.A row (row + m + 1) * C (row + m + 1))

/-- The final value of `C[row]` computed by the inner loop of
`solveGauss`: start from `B[row]` and subtract `matrix[row][col] * C[col]`
for `col = nsize-1` down to `row+1`. -/
def backSubRow (nsize : ℕ) (s : SysState) (C : ℕ → ℚ) (row : ℕ) : ℚ :=
  backSubCols s C row (nsize - 1 - row) (s.B row)

/-- The complete global state during `solveGauss`: the matrix and
right-hand side together with the solution buffer `C`. -/
@[ext]
structure GlobState where
  sys : SysState
  C : ℕ → ℚ

/-- The outer loop of `solveGauss`: `solveRowsG nsize t g` runs the rows
`t-1, t-2, …, 0` (the source loop `for (row = nsize-2; row >= 0; row--)`
is `solveRowsG nsize (nsize-1)` applied after the seed write), writing
each row's value into the solution buffer `C`. -/
def solveRowsG (nsize : ℕ) : ℕ → GlobState → GlobState
  | 0, g => g
  | t + 1, g => solveRowsG nsize t { g with C := Function.update g.C t (backSubRow nsize g.sys g.C t) }

/-- `solveGauss` acting on the whole global state:
`C[nsize-1] = B[nsize-1]`, then back-substitute each row from `nsize-2`
down to `0`.  Only the solution buffer `C` is ever written. -/
def solveGaussG (nsize : ℕ) (g : GlobState) : GlobState :=
  solveRowsG nsize (nsize - 1) { g with C := Function.update g.C (nsize - 1) (g.sys.B (nsize - 1)) }

/-- The solution vector produced by `solveGauss` from matrix state `s`
and (uninitialized) solution buffer `C0`. -/
def solveGauss (nsize : ℕ) (s : SysState) (C0 : ℕ → ℚ) : ℕ → ℚ :=
  (solveGaussG nsize ⟨s, C0⟩).C

/-- The expected value asserted by `main`'s verification loop at index
`n`: `-0.5` for `n == 0`, `0.5` for `n == nsize-1`, `0` otherwise, with
the `n == 0` branch tested first. -/
def expectedVal (nsize n : ℕ) : ℚ :=
  if n = 0 then -(1 / 2) else if n = nsize - 1 then 1 / 2 else 0

/-- `main`'s verification loop succeeds: every solution entry equals its
expected value. -/
def verifyPasses (nsize : ℕ) (x : ℕ → ℚ) : Prop :=
  ∀ n, n < nsize → x n = expectedVal nsize n

instance (nsize : ℕ) (x : ℕ → ℚ) : Decidable (verifyPasses nsize x) :=
  Nat.decidableBallLT nsize _

/-- An all-zero state, standing in for freshly allocated (uninitialized)
memory when running the pipeline on concrete sizes. -/
def zeroState : SysState := { A := fun _ _ => 0, B := fun _ => 0 }

/-- `optionHolds o P` holds when the fallible computation `o` succeeded
with a value satisfying `P`. -/
def optionHolds {α : Type} (o : Option α) (P : α → Prop) : Prop :=
  match o with
  | none => False
  | some a => P a

instance {α : Type} (o : Option α) (P : α → Prop) [inst : ∀ a, Decidable (P a)] :
    Decidable (optionHolds o P) :=
  match o with
  | none => isFalse (fun h => h)
  | some a => inst a

/-- Modelled from the spec: the option events seen by the argument loop
of `main`.  `getopt` and `atoi` are C library routines, not part of this
repository's source; an occurrence of `-s <size>` on the command line is
modelled as the event `sizeFlag v` carrying the `atoi`-parsed integer
value `v`, and any unrecognized flag as the event `unknownFlag` (for
which `getopt` returns a character other than `'s'`). -/
inductive CLIEvent where
  | sizeFlag (v : ℤ)
  | unknownFlag
deriving DecidableEq

/-- The `while ((i = getopt(argc, argv, "s:")) != -1)` loop of `main`:
`case 's'` sets `nsize = s` when `s > 0` and otherwise prints the
warning `"  -s is negative... using %d"` keeping the current size; the
`default` branch is `assert(0)`, an abnormal termination modelled as
`none`.  Returns the final size together with the warnings printed. -/
def parseLoop : List CLIEvent → ℕ → List String → Option (ℕ × List String)
  | [], nsize, warns => some (nsize, warns)
  | .sizeFlag v :: rest, nsize, warns =>
      if v > 0 then parseLoop rest v.toNat warns
      else parseLoop rest nsize (warns ++ ["  -s is negative... using " ++ toString nsize])
  | .unknownFlag :: _, _, _ => none

/-- Argument parsing in `main`, starting from the default size
`nsize = 1024` with no warnings printed yet. -/
def parseArgs (evs : List CLIEvent) : Option (ℕ × List String) :=
  parseLoop evs 1024 []

/-- The computational part of `main` after argument parsing: on parse
success, initialize and solve the `nsize × nsize` system (`none` if the
singular-matrix exit fired); on an unrecognized flag `main` aborts inside
the parse loop and the solver is never invoked. -/
def mainSolve (evs : List CLIEvent) : Option (ℕ → ℚ) :=
  match parseArgs evs with
  | none => none
  | some (nsize, _) =>
      (computeGauss nsize (initMatrix nsize zeroState)).map
        (fun s => solveGauss nsize s (fun _ => 0))

/-- The full pipeline run by `main` on dimension `nsize`, from a given
uninitialized memory state: initialization, elimination (`none` on the
singular-matrix exit), then back-substitution. -/
def pipeline (nsize : ℕ) (g : GlobState) : Option (ℕ → ℚ) :=
  (computeGauss nsize (initMatrix nsize g.sys)).map
    (fun s => solveGauss nsize s g.C)

/-! ## Basic lemmas about the embedded operations -/

theorem ABS_eq_abs (a : ℚ) : ABS a = |a| := by
  by_cases h : a > 0
  · simp [ABS, h, abs_of_pos h]
  · simp [ABS, h, abs_of_nonpos (le_of_not_lt h)]

theorem ABS_eq_zero (a : ℚ) : ABS a = 0 ↔ a = 0 := by
  rw [ABS_eq_abs]; exact abs_eq_zero

theorem swapRows_A (a b : ℕ) (s : SysState) (r c : ℕ) :
    (swapRows a b s).A r c =
      if r = a then s.A b c else if r = b then s.A a c else s.A r c := rfl

theorem swapRows_B (a b : ℕ) (s : SysState) (r : ℕ) :
    (swapRows a b s).B r =
      if r = a then s.B b else if r = b then s.B a else s.B r := rfl

theorem normalizeRow_A (nsize k : ℕ) (s : SysState) (r c : ℕ) :
    (normalizeRow nsize k s).A r c =
      if r = k then
        (if c = k then 1
         else if k + 1 ≤ c ∧ c < nsize then s.A k c / s.A k k
         else s.A k c)
      else s.A r c := by
  unfold normalizeRow
  by_cases h : s.A k k ≠ 1
  · simp only [if_pos h]
    by_cases hr : r = k
    · subst hr; simp
    · simp [hr]
  · push_neg at h
    simp only [h, ne_eq, not_true_eq_false, if_false]
    by_cases hr : r = k
    · subst hr
      by_cases hc : c = r
      · subst hc; simp [h]
      · simp [hc, h, div_one]
    · simp [hr]

theorem normalizeRow_B (nsize k : ℕ) (s : SysState) (r : ℕ) :
    (normalizeRow nsize k s).B r =
      if r = k then s.B k / s.A k k else s.B r := by
  unfold normalizeRow
  by_cases h : s.A k k ≠ 1
  · simp only [if_pos h]
    by_cases hr : r = k
    · subst hr; simp
    · simp [hr]
  · push_neg at h
    simp only [h, ne_eq, not_true_eq_false, if_false]
    by_cases hr : r = k
    · subst hr; simp [h, div_one]
    · simp [hr]

theorem normalizeRow_diag (nsize k : ℕ) (s : SysState) :
    (normalizeRow nsize k s).A k k = 1 := by
  rw [normalizeRow_A]; simp

/-! ## The pivot search -/

theorem findPivotAux_spec (A : ℕ → ℕ → ℚ) (k : ℕ) :
    ∀ (m a irow : ℕ) (big : ℚ), big = ABS (A irow k) → k ≤ irow → irow < a →
      (∀ r, k ≤ r → r < a → ABS (A r k) ≤ big ∧ (r < irow → ABS (A r k) < big)) →
      ∀ ir bg, findPivotAux A k irow big (List.range' a m) = (ir, bg) →
        k ≤ ir ∧ ir < a + m ∧ bg = ABS (A ir k) ∧
        ∀ r, k ≤ r → r < a + m → ABS (A r k) ≤ bg ∧ (r < ir → ABS (A r k) < bg) := by
  intro m
  induction m with
  | zero =>
    intro a irow big hbig hki hia hinv ir bg heq
    simp only [List.range', findPivotAux] at heq
    cases heq
    exact ⟨hki, by omega, hbig, fun r h1 h2 => hinv r h1 (by omega)⟩
  | succ m ih =>
    intro a irow big hbig hki hia hinv ir bg heq
    rw [List.range'_succ] at heq
    simp only [findPivotAux] at heq
    by_cases hgt : ABS (A a k) > big
    · rw [if_pos hgt] at heq
      have hinv' : ∀ r, k ≤ r → r < a + 1 →
          ABS (A r k) ≤ ABS (A a k) ∧ (r < a → ABS (A r k) < ABS (A a k)) := by
        intro r h1 h2
        rcases Nat.lt_succ_iff_lt_or_eq.mp h2 with h | rfl
        · exact ⟨le_of_lt (lt_of_le_of_lt (hinv r h1 h).1 hgt),
            fun _ => lt_of_le_of_lt (hinv r h1 h).1 hgt⟩
        · exact ⟨le_refl _, fun h => absurd h (lt_irrefl r)⟩
      obtain ⟨h1, h2, h3, h4⟩ :=
        ih (a + 1) a (ABS (A a k)) rfl (le_trans hki (le_of_lt hia)) (by omega) hinv' ir bg heq
      exact ⟨h1, by omega, h3, fun r hr1 hr2 => h4 r hr1 (by omega)⟩
    · rw [if_neg hgt] at heq
      have hinv' : ∀ r, k ≤ r → r < a + 1 →
          ABS (A r k) ≤ big ∧ (r < irow → ABS (A r k) < big) := by
        intro r h1 h2
        rcases Nat.lt_succ_iff_lt_or_eq.mp h2 with h | rfl
        · exact hinv r h1 h
        · exact ⟨le_of_not_lt hgt, fun h => absurd h (by omega)⟩
      obtain ⟨h1, h2, h3, h4⟩ :=
        ih (a + 1) irow big hbig hki (by omega) hinv' ir bg heq
      exact ⟨h1, by omega, h3, fun r hr1 hr2 => h4 r hr1 (by omega)⟩

theorem findPivot_spec (nsize k : ℕ) (A : ℕ → ℕ → ℚ) (hk : k < nsize) :
    ∀ ir bg, findPivot nsize k A = (ir, bg) →
      k ≤ ir ∧ ir < nsize ∧ bg = ABS (A ir k) ∧
      (∀ r, k ≤ r → r < nsize → ABS (A r k) ≤ bg) ∧
      (∀ r, k ≤ r → r < ir → ABS (A r k) < bg) := by
  intro ir bg heq
  have hinv : ∀ r, k ≤ r → r < k + 1 →
      ABS (A r k) ≤ ABS (A k k) ∧ (r < k → ABS (A r k) < ABS (A k k)) := by
    intro r h1 h2
    have : r = k := by omega
    subst this
    exact ⟨le_refl _, fun h => absurd h (lt_irrefl r)⟩
  obtain ⟨h1, h2, h3, h4⟩ :=
    findPivotAux_spec A k (nsize - (k + 1)) (k + 1) k (ABS (A k k)) rfl (le_refl k)
      (by omega) hinv ir bg heq
  have hrange : k + 1 + (nsize - (k + 1)) = nsize := by omega
  rw [hrange] at h2 h4
  refine ⟨h1, h2, h3, fun r hr1 hr2 => (h4 r hr1 hr2).1, fun r hr1 hr2 => ?_⟩
  exact (h4 r hr1 (lt_trans hr2 h2)).2 hr2

/-! ## The elimination update -/

theorem foldl_elimColsStep (i j : ℕ) (pv : ℚ) :
    ∀ (L : List ℕ) (s : SysState), L.Nodup → i ≠ j →
      (∀ r c, (L.foldl (elimColsStep i j pv) s).A r c =
        if r = j ∧ c ∈ L then s.A j c - pv * s.A i c else s.A r c) ∧
      (∀ r, (L.foldl (elimColsStep i j pv) s).B r = s.B r) := by
  intro L
  induction L with
  | nil =>
    intro s _ _
    exact ⟨fun r c => by simp, fun r => rfl⟩
  | cons k rest ih =>
    intro s hnd hij
    have hkrest : k ∉ rest := (List.nodup_cons.mp hnd).1
    obtain ⟨ihA, ihB⟩ := ih (elimColsStep i j pv s k) (List.nodup_cons.mp hnd).2 hij
    constructor
    · intro r c
      rw [List.foldl_cons, ihA r c]
      by_cases hr : r = j
      · by_cases hck : c = k
        · simp [elimColsStep, List.mem_cons, hr, hck, hkrest, hij]
        · by_cases hcr : c ∈ rest
          · simp [elimColsStep, List.mem_cons, hr, hck, hcr, hij]
          · simp [elimColsStep, List.mem_cons, hr, hck, hcr]
      · simp [elimColsStep, List.mem_cons, hr]
    · intro r
      rw [List.foldl_cons, ihB r]
      rfl

theorem mem_elim_range (i nsize c : ℕ) :
    c ∈ List.range' (i + 1) (nsize - (i + 1)) ↔ i + 1 ≤ c ∧ c < nsize := by
  rw [List.mem_range'_1]
  omega

theorem elimRow_A (nsize i j : ℕ) (s : SysState) (hij : i ≠ j) (r c : ℕ) :
    (elimRow nsize i j s).A r c =
      if r = j then
        (if c = i then 0
         else if i + 1 ≤ c ∧ c < nsize then s.A j c - s.A j i * s.A i c
         else s.A j c)
      else s.A r c := by
  have hnd := List.nodup_range' (i + 1) (nsize - (i + 1))
  obtain ⟨hA, _⟩ := foldl_elimColsStep i j (s.A j i)
    (List.range' (i + 1) (nsize - (i + 1)))
    ⟨fun r c => if r = j ∧ c = i then 0 else s.A r c, s.B⟩ hnd hij
  have key : (elimRow nsize i j s).A r c =
      (List.foldl (elimColsStep i j (s.A j i))
        ⟨fun r c => if r = j ∧ c = i then 0 else s.A r c, s.B⟩
        (List.range' (i + 1) (nsize - (i + 1)))).A r c := rfl
  rw [key, hA r c]
  simp only [mem_elim_range]
  by_cases hr : r = j
  · by_cases hci : c = i
    · have hcm : ¬ (i + 1 ≤ i ∧ i < nsize) := by omega
      simp [hr, hci, hcm]
    · by_cases hcm : i + 1 ≤ c ∧ c < nsize
      · simp [hr, hci, hcm, hij]
      · simp [hr, hci, hcm]
  · simp [hr]

theorem elimRow_B (nsize i j : ℕ) (s : SysState) (hij : i ≠ j) (r : ℕ) :
    (elimRow nsize i j s).B r = if r = j then s.B r - s.A j i * s.B i else s.B r := by
  have hnd := List.nodup_range' (i + 1) (nsize - (i + 1))
  obtain ⟨_, hB⟩ := foldl_elimColsStep i j (s.A j i)
    (List.range' (i + 1) (nsize - (i + 1)))
    ⟨fun r c => if r = j ∧ c = i then 0 else s.A r c, s.B⟩ hnd hij
  have key : (elimRow nsize i j s).B r =
      (if r = j then
        (List.foldl (elimColsStep i j (s.A j i))
          ⟨fun r c => if r = j ∧ c = i then 0 else s.A r c, s.B⟩
          (List.range' (i + 1) (nsize - (i + 1)))).B r -
          s.A j i *
          (List.foldl (elimColsStep i j (s.A j i))
            ⟨fun r c => if r = j ∧ c = i then 0 else s.A r c, s.B⟩
            (List.range' (i + 1) (nsize - (i + 1)))).B i
        else
          (List.foldl (elimColsStep i j (s.A j i))
            ⟨fun r c => if r = j ∧ c = i then 0 else s.A r c, s.B⟩
            (List.range' (i + 1) (nsize - (i + 1)))).B r) := rfl
  rw [key, hB r, hB i]

theorem foldl_elimRow (nsize i : ℕ) :
    ∀ (L : List ℕ) (s : SysState), i ∉ L → L.Nodup →
      (∀ r c, (L.foldl (fun t j => elimRow nsize i j t) s).A r c =
        if r ∈ L then
          (if c = i then 0
           else if i + 1 ≤ c ∧ c < nsize then s.A r c - s.A r i * s.A i c
           else s.A r c)
        else s.A r c) ∧
      (∀ r, (L.foldl (fun t j => elimRow nsize i j t) s).B r =
        if r ∈ L then s.B r - s.A r i * s.B i else s.B r) := by
  intro L
  induction L with
  | nil =>
    intro s _ _
    exact ⟨fun r c => by simp, fun r => by simp⟩
  | cons j0 rest ih =>
    intro s hi hnd
    have hij0 : i ≠ j0 := fun h => hi (h ▸ List.mem_cons_self _ _)
    have hj0rest : j0 ∉ rest := (List.nodup_cons.mp hnd).1
    have hirest : i ∉ rest := fun h => hi (List.mem_cons_of_mem _ h)
    obtain ⟨ihA, ihB⟩ := ih (elimRow nsize i j0 s) hirest (List.nodup_cons.mp hnd).2
    have eAic : ∀ c, (elimRow nsize i j0 s).A i c = s.A i c := by
      intro c
      rw [elimRow_A nsize i j0 s hij0]
      simp [hij0]
    have eBi : (elimRow nsize i j0 s).B i = s.B i := by
      rw [elimRow_B nsize i j0 s hij0]
      simp [hij0]
    constructor
    · intro r c
      rw [List.foldl_cons, ihA r c]
      by_cases hrrest : r ∈ rest
      · have hrj0 : r ≠ j0 := fun h => hj0rest (h ▸ hrrest)
        have e1 : ∀ c, (elimRow nsize i j0 s).A r c = s.A r c := by
          intro c
          rw [elimRow_A nsize i j0 s hij0]
          simp [hrj0]
        simp only [if_pos hrrest, if_pos (List.mem_cons_of_mem j0 hrrest), e1, eAic]
      · by_cases hrj0 : r = j0
        · have hrcons : r ∈ j0 :: rest := by rw [hrj0]; exact List.mem_cons_self _ _
          rw [if_neg hrrest, elimRow_A nsize i j0 s hij0, if_pos hrj0, if_pos hrcons, hrj0]
        · have hrcons : r ∉ j0 :: rest := by
            rw [List.mem_cons]
            push_neg
            exact ⟨hrj0, hrrest⟩
          rw [if_neg hrrest, elimRow_A nsize i j0 s hij0, if_neg hrj0, if_neg hrcons]
    · intro r
      rw [List.foldl_cons, ihB r]
      by_cases hrrest : r ∈ rest
      · have hrj0 : r ≠ j0 := fun h => hj0rest (h ▸ hrrest)
        have e1 : (elimRow nsize i j0 s).B r = s.B r := by
          rw [elimRow_B nsize i j0 s hij0]
          simp [hrj0]
        have e2 : (elimRow nsize i j0 s).A r i = s.A r i := by
          rw [elimRow_A nsize i j0 s hij0]
          simp [hrj0]
        rw [if_pos hrrest, if_pos (List.mem_cons_of_mem j0 hrrest), e1, e2, eBi]
      · by_cases hrj0 : r = j0
        · have hrcons : r ∈ j0 :: rest := by rw [hrj0]; exact List.mem_cons_self _ _
          rw [if_neg hrrest, elimRow_B nsize i j0 s hij0, if_pos hrj0, if_pos hrcons, hrj0]
        · have hrcons : r ∉ j0 :: rest := by
            rw [List.mem_cons]
            push_neg
            exact ⟨hrj0, hrrest⟩
          rw [if_neg hrrest, elimRow_B nsize i j0 s hij0, if_neg hrj0, if_neg hrcons]

theorem elimBelow_A (nsize i : ℕ) (s : SysState) (r c : ℕ) :
    (elimBelow nsize i s).A r c =
      if i + 1 ≤ r ∧ r < nsize then
        (if c = i then 0
         else if i + 1 ≤ c ∧ c < nsize then s.A r c - s.A r i * s.A i c
         else s.A r c)
      else s.A r c := by
  have hi : i ∉ List.range' (i + 1) (nsize - (i + 1)) := by
    rw [mem_elim_range]
    omega
  obtain ⟨hA, _⟩ := foldl_elimRow nsize i (List.range' (i + 1) (nsize - (i + 1))) s hi
    (List.nodup_range' _ _)
  unfold elimBelow
  rw [hA r c]
  simp only [mem_elim_range]

theorem elimBelow_B (nsize i : ℕ) (s : SysState) (r : ℕ) :
    (elimBelow nsize i s).B r =
      if i + 1 ≤ r ∧ r < nsize then s.B r - s.A r i * s.B i else s.B r := by
  have hi : i ∉ List.range' (i + 1) (nsize - (i + 1)) := by
    rw [mem_elim_range]
    omega
  obtain ⟨_, hB⟩ := foldl_elimRow nsize i (List.range' (i + 1) (nsize - (i + 1))) s hi
    (List.nodup_range' _ _)
  unfold elimBelow
  rw [hB r]
  simp only [mem_elim_range]

/-! ## The outer elimination loop -/

theorem gaussAux_induct (n : ℕ) (P : ℕ → SysState → Prop)
    (hstep : ∀ k s s1, k < n → P k s → getPivot n k s = some s1 →
      P (k + 1) (elimBelow n k s1)) :
    ∀ m k s s', k + m ≤ n → P k s → gaussAux n s (List.range' k m) = some s' →
      P (k + m) s' := by
  intro m
  induction m with
  | zero =>
    intro k s s' h hP heq
    simp only [List.range', gaussAux, Option.some.injEq] at heq
    rw [Nat.add_zero, ← heq]
    exact hP
  | succ m ih =>
    intro k s s' h hP heq
    rw [List.range'_succ] at heq
    simp only [gaussAux] at heq
    cases hgp : getPivot n k s with
    | none => rw [hgp] at heq; cases heq
    | some s1 =>
      rw [hgp] at heq
      have hP1 := hstep k s s1 (by omega) hP hgp
      have := ih (k + 1) (elimBelow n k s1) s' (by omega) hP1 heq
      rw [show k + (m + 1) = k + 1 + m by omega]
      exact this

theorem gaussAux_total (n : ℕ) (P : ℕ → SysState → Prop)
    (hstep : ∀ k s, k < n → P k s → ∃ s1, getPivot n k s = some s1 ∧
      P (k + 1) (elimBelow n k s1)) :
    ∀ m k s, k + m ≤ n → P k s → ∃ s', gaussAux n s (List.range' k m) = some s' ∧
      P (k + m) s' := by
  intro m
  induction m with
  | zero =>
    intro k s h hP
    exact ⟨s, rfl, by rw [Nat.add_zero]; exact hP⟩
  | succ m ih =>
    intro k s h hP
    obtain ⟨s1, hgp, hP1⟩ := hstep k s (by omega) hP
    obtain ⟨s', heq, hP'⟩ := ih (k + 1) (elimBelow n k s1) (by omega) hP1
    refine ⟨s', ?_, ?_⟩
    · rw [List.range'_succ]
      simp only [gaussAux, hgp]
      exact heq
    · rw [show k + (m + 1) = k + 1 + m by omega]
      exact hP'

theorem gaussAux_append (n : ℕ) :
    ∀ (L1 L2 : List ℕ) (s : SysState),
      gaussAux n s (L1 ++ L2) = (gaussAux n s L1).bind (fun t => gaussAux n t L2) := by
  intro L1
  induction L1 with
  | nil => intro L2 s; rfl
  | cons a rest ih =>
    intro L2 s
    simp only [List.cons_append, gaussAux]
    cases h : getPivot n a s with
    | none => rfl
    | some s1 => exact ih L2 (elimBelow n a s1)

/-! ## Back-substitution -/

theorem solveRowsG_sys (nsize : ℕ) :
    ∀ (t : ℕ) (g : GlobState), (solveRowsG nsize t g).sys = g.sys := by
  intro t
  induction t with
  | zero => intro g; rfl
  | succ t ih =>
    intro g
    exact ih { g with C := Function.update g.C t (backSubRow nsize g.sys g.C t) }

theorem solveRowsG_C_ge (nsize : ℕ) :
    ∀ (t : ℕ) (g : GlobState) (r : ℕ), t ≤ r → (solveRowsG nsize t g).C r = g.C r := by
  intro t
  induction t with
  | zero => intro g r _; rfl
  | succ t ih =>
    intro g r hr
    have := ih { g with C := Function.update g.C t (backSubRow nsize g.sys g.C t) } r (by omega)
    rw [show solveRowsG nsize (t + 1) g =
      solveRowsG nsize t { g with C := Function.update g.C t (backSubRow nsize g.sys g.C t) }
      from rfl, this]
    exact Function.update_noteq (by omega) _ _

theorem backSubCols_congr (s : SysState) (C D : ℕ → ℚ) (row : ℕ) :
    ∀ (m : ℕ) (acc : ℚ), (∀ c, row + 1 ≤ c → c ≤ row + m → C c = D c) →
      backSubCols s C row m acc = backSubCols s D row m acc := by
  intro m
  induction m with
  | zero => intro acc _; rfl
  | succ m ih =>
    intro acc h
    show backSubCols s C row m (acc - s.A row (row + m + 1) * C (row + m + 1)) =
      backSubCols s D row m (acc - s.A row (row + m + 1) * D (row + m + 1))
    rw [h (row + m + 1) (by omega) (by omega)]
    exact ih _ (fun c h1 h2 => h c h1 (by omega))

theorem solveRowsG_C_lt (nsize : ℕ) :
    ∀ (t : ℕ) (g : GlobState) (r : ℕ), r < t →
      (solveRowsG nsize t g).C r = backSubRow nsize g.sys (solveRowsG nsize t g).C r := by
  intro t
  induction t with
  | zero => intro g r h; omega
  | succ t ih =>
    intro g r hr
    by_cases hrt : r = t
    · have e1 : (solveRowsG nsize (t + 1) g).C r = backSubRow nsize g.sys g.C r := by
        rw [show solveRowsG nsize (t + 1) g =
          solveRowsG nsize t { g with C := Function.update g.C t (backSubRow nsize g.sys g.C t) }
          from rfl, solveRowsG_C_ge nsize t _ r (by omega), hrt]
        exact Function.update_same _ _ _
      rw [e1]
      unfold backSubRow
      exact backSubCols_congr g.sys g.C ((solveRowsG nsize (t + 1) g).C) r
        (nsize - 1 - r) (g.sys.B r)
        (fun c h1 _ => (solveRowsG_C_ge nsize (t + 1) g c (by omega)).symm)
    · have hrt' : r < t := by omega
      exact ih { g with C := Function.update g.C t (backSubRow nsize g.sys g.C t) } r hrt'

theorem solveGauss_last (nsize : ℕ) (s : SysState) (C0 : ℕ → ℚ) :
    solveGauss nsize s C0 (nsize - 1) = s.B (nsize - 1) := by
  unfold solveGauss solveGaussG
  rw [solveRowsG_C_ge nsize (nsize - 1) _ (nsize - 1) (le_refl _)]
  exact Function.update_same _ _ _

theorem solveGauss_row (nsize : ℕ) (s : SysState) (C0 : ℕ → ℚ) (r : ℕ)
    (hr : r < nsize - 1) :
    solveGauss nsize s C0 r = backSubRow nsize s (solveGauss nsize s C0) r := by
  unfold solveGauss solveGaussG
  exact solveRowsG_C_lt nsize (nsize - 1)
    ⟨s, Function.update C0 (nsize - 1) (s.B (nsize - 1))⟩ r hr

theorem backSubCols_eq_sub_sum (s : SysState) (C : ℕ → ℚ) (row : ℕ) :
    ∀ (m : ℕ) (acc : ℚ), backSubCols s C row m acc =
      acc - ∑ t ∈ Finset.range m, s.A row (row + 1 + t) * C (row + 1 + t) := by
  intro m
  induction m with
  | zero => intro acc; simp [backSubCols]
  | succ m ih =>
    intro acc
    show backSubCols s C row m (acc - s.A row (row + m + 1) * C (row + m + 1)) = _
    rw [ih, Finset.sum_range_succ]
    have h : row + m + 1 = row + 1 + m := by omega
    rw [h]
    ring

theorem solveGauss_row_sum (nsize : ℕ) (s : SysState) (C0 : ℕ → ℚ) (r : ℕ)
    (hr : r < nsize - 1) :
    solveGauss nsize s C0 r =
      s.B r - ∑ t ∈ Finset.range (nsize - 1 - r),
        s.A r (r + 1 + t) * solveGauss nsize s C0 (r + 1 + t) := by
  rw [solveGauss_row nsize s C0 r hr]
  unfold backSubRow
  exact backSubCols_eq_sub_sum s _ r (nsize - 1 - r) (s.B r)

/-! ## The pivot step -/

theorem getPivot_eq (nsize k : ℕ) (s : SysState) :
    getPivot nsize k s =
      if (findPivot nsize k s.A).2 = 0 then none
      else some (normalizeRow nsize k
        (if (findPivot nsize k s.A).1 ≠ k then swapRows (findPivot nsize k s.A).1 k s
         else s)) := rfl

theorem getPivot_none_of_zero_col (nsize k : ℕ) (s : SysState) (hk : k < nsize)
    (hz : ∀ r, k ≤ r → r < nsize → s.A r k = 0) :
    getPivot nsize k s = none := by
  rcases hfp : findPivot nsize k s.A with ⟨ir, bg⟩
  obtain ⟨h1, h2, h3, _, _⟩ := findPivot_spec nsize k s.A hk ir bg hfp
  have hbg : bg = 0 := by
    rw [h3, hz ir h1 h2, ABS_eq_abs]
    simp
  rw [getPivot_eq, hfp]
  simp [hbg]

theorem getPivot_isSome_diag (nsize k : ℕ) (s s' : SysState)
    (h : getPivot nsize k s = some s') : s'.A k k = 1 := by
  rw [getPivot_eq] at h
  by_cases hbg : (findPivot nsize k s.A).2 = 0
  · rw [if_pos hbg] at h
    cases h
  · rw [if_neg hbg] at h
    rw [← Option.some.inj h]
    exact normalizeRow_diag nsize k _

/-! ## Argument parsing -/

theorem parseLoop_none_of_unknown :
    ∀ (l : List CLIEvent) (n : ℕ) (w : List String),
      CLIEvent.unknownFlag ∈ l → parseLoop l n w = none := by
  intro l
  induction l with
  | nil => intro n w h; cases h
  | cons e rest ih =>
    intro n w h
    cases e with
    | sizeFlag v =>
      have hr : CLIEvent.unknownFlag ∈ rest := by
        rcases List.mem_cons.mp h with h1 | h1
        · simp at h1
        · exact h1
      show (if v > 0 then parseLoop rest v.toNat w
            else parseLoop rest n (w ++ ["  -s is negative... using " ++ toString n])) = none
      by_cases hv : v > 0
      · rw [if_pos hv]; exact ih _ _ hr
      · rw [if_neg hv]; exact ih _ _ hr
    | unknownFlag => rfl

/-! ## The triangular-shape invariant of the elimination -/

theorem gauss_step_triangular (n k : ℕ) (t s1 : SysState) (hk : k < n)
    (hP : (∀ i j, j < k → j < i → i < n → t.A i j = 0) ∧ ∀ i, i < k → t.A i i = 1)
    (hgp : getPivot n k t = some s1) :
    (∀ i j, j < k + 1 → j < i → i < n → (elimBelow n k s1).A i j = 0) ∧
    ∀ i, i < k + 1 → (elimBelow n k s1).A i i = 1 := by
  obtain ⟨hz, hd⟩ := hP
  rcases hfp : findPivot n k t.A with ⟨ir, bg⟩
  obtain ⟨hir1, hir2, _, _, _⟩ := findPivot_spec n k t.A hk ir bg hfp
  rw [getPivot_eq, hfp] at hgp
  dsimp only at hgp
  by_cases hbg : bg = 0
  · rw [if_pos hbg] at hgp
    cases hgp
  · rw [if_neg hbg] at hgp
    have hs1 : s1 = normalizeRow n k (if ir ≠ k then swapRows ir k t else t) :=
      (Option.some.inj hgp).symm
    have ht2z : ∀ i j, j < k → j < i → i < n →
        (if ir ≠ k then swapRows ir k t else t).A i j = 0 := by
      intro i j hjk hji hin
      by_cases hirk : ir ≠ k
      · rw [if_pos hirk, swapRows_A]
        by_cases hi1 : i = ir
        · rw [if_pos hi1]
          exact hz k j hjk hjk hk
        · rw [if_neg hi1]
          by_cases hi2 : i = k
          · rw [if_pos hi2]
            exact hz ir j hjk (by omega) hir2
          · rw [if_neg hi2]
            exact hz i j hjk hji hin
      · rw [if_neg hirk]
        exact hz i j hjk hji hin
    have ht2d : ∀ i, i < k → (if ir ≠ k then swapRows ir k t else t).A i i = 1 := by
      intro i hi
      by_cases hirk : ir ≠ k
      · rw [if_pos hirk, swapRows_A, if_neg (by omega : ¬ i = ir), if_neg (by omega : ¬ i = k)]
        exact hd i hi
      · rw [if_neg hirk]
        exact hd i hi
    have hs1z : ∀ i j, j < k → j < i → i < n → s1.A i j = 0 := by
      intro i j hjk hji hin
      rw [hs1, normalizeRow_A]
      by_cases hik : i = k
      · rw [if_pos hik, if_neg (by omega : ¬ j = k), if_neg (by omega : ¬ (k + 1 ≤ j ∧ j < n))]
        exact ht2z k j hjk hjk hk
      · rw [if_neg hik]
        exact ht2z i j hjk hji hin
    have hs1d : ∀ i, i < k + 1 → s1.A i i = 1 := by
      intro i hi
      by_cases hik : i = k
      · rw [hs1, hik]
        exact normalizeRow_diag n k _
      · rw [hs1, normalizeRow_A, if_neg hik]
        exact ht2d i (by omega)
    constructor
    · intro i j hjk1 hji hin
      rw [elimBelow_A]
      by_cases hrow : k + 1 ≤ i ∧ i < n
      · rw [if_pos hrow]
        by_cases hjkeq : j = k
        · rw [if_pos hjkeq]
        · rw [if_neg hjkeq, if_neg (by omega : ¬ (k + 1 ≤ j ∧ j < n))]
          exact hs1z i j (by omega) hji hin
      · rw [if_neg hrow]
        have hjk : j < k := by omega
        exact hs1z i j hjk hji hin
    · intro i hi
      rw [elimBelow_A, if_neg (by omega : ¬ (k + 1 ≤ i ∧ i < n))]
      exact hs1d i hi

/-! ## The exact values computed on the test matrix -/

theorem gauss_step_values (n k : ℕ) (t : SysState) (hk : k < n)
    (hA1 : ∀ r c, r < k → c < n → r ≤ c → t.A r c = 1)
    (hA0 : ∀ r c, c < k → c < r → r < n → t.A r c = 0)
    (hA2 : ∀ r c, k ≤ r → k ≤ c → r < n → c < n →
      t.A r c = 2 * ((min r c : ℚ) - (k : ℚ) + 1))
    (hB1 : ∀ r, r < k → t.B r = if r = 0 then 0 else 1 / 2)
    (hB2 : ∀ r, k ≤ r → r < n → t.B r = (r : ℚ) - ((max k 1 : ℕ) : ℚ) + 1) :
    ∃ s1, getPivot n k t = some s1 ∧
      (∀ r c, r < k + 1 → c < n → r ≤ c → (elimBelow n k s1).A r c = 1) ∧
      (∀ r c, c < k + 1 → c < r → r < n → (elimBelow n k s1).A r c = 0) ∧
      (∀ r c, k + 1 ≤ r → k + 1 ≤ c → r < n → c < n →
        (elimBelow n k s1).A r c = 2 * ((min r c : ℚ) - ((k : ℚ) + 1) + 1)) ∧
      (∀ r, r < k + 1 → (elimBelow n k s1).B r = if r = 0 then 0 else 1 / 2) ∧
      (∀ r, k + 1 ≤ r → r < n →
        (elimBelow n k s1).B r = (r : ℚ) - ((max (k + 1) 1 : ℕ) : ℚ) + 1) := by
  have hcol : ∀ r, k ≤ r → r < n → t.A r k = 2 := by
    intro r h1 h2
    rw [hA2 r k h1 (le_refl k) h2 hk, min_eq_right (by exact_mod_cast h1 : (k : ℚ) ≤ (r : ℚ))]
    ring
  rcases hfp : findPivot n k t.A with ⟨ir, bg⟩
  obtain ⟨hir1, hir2, hbg, hmax, hstrict⟩ := findPivot_spec n k t.A hk ir bg hfp
  have hbg2 : bg = 2 := by
    rw [hbg, hcol ir hir1 hir2, ABS_eq_abs]
    norm_num
  have hirk : ir = k := by
    by_contra hne
    have hklt : k < ir := lt_of_le_of_ne hir1 (Ne.symm hne)
    have := hstrict k (le_refl k) hklt
    rw [hcol k (le_refl k) hk, hbg2, ABS_eq_abs] at this
    norm_num at this
  have hgp : getPivot n k t = some (normalizeRow n k t) := by
    rw [getPivot_eq, hfp]
    dsimp only
    rw [if_neg (by rw [hbg2]; norm_num), hirk]
    simp
  refine ⟨normalizeRow n k t, hgp, ?_⟩
  have hAkk : t.A k k = 2 := hcol k (le_refl k) hk
  have hs1row : ∀ c, k ≤ c → c < n → (normalizeRow n k t).A k c = 1 := by
    intro c h1 h2
    rcases eq_or_lt_of_le h1 with rfl | hlt
    · exact normalizeRow_diag n k t
    · rw [normalizeRow_A, if_pos rfl, if_neg (by omega : ¬ c = k),
        if_pos ⟨by omega, h2⟩, hAkk, hA2 k c (le_refl k) (le_of_lt hlt) hk h2,
        min_eq_left (by exact_mod_cast le_of_lt hlt : (k : ℚ) ≤ (c : ℚ))]
      ring
  have hs1A_other : ∀ r c, r ≠ k → (normalizeRow n k t).A r c = t.A r c := by
    intro r c hr
    rw [normalizeRow_A, if_neg hr]
  have hs1A_low : ∀ c, c < k → (normalizeRow n k t).A k c = t.A k c := by
    intro c hc
    rw [normalizeRow_A, if_pos rfl, if_neg (by omega : ¬ c = k),
      if_neg (by omega : ¬ (k + 1 ≤ c ∧ c < n))]
  have hs1Bk : (normalizeRow n k t).B k = if k = 0 then (0 : ℚ) else 1 / 2 := by
    rw [normalizeRow_B, if_pos rfl, hAkk, hB2 k (le_refl k) hk]
    rcases Nat.eq_zero_or_pos k with rfl | hk1
    · norm_num
    · rw [if_neg (by omega : ¬ k = 0), Nat.max_eq_left hk1]
      ring
  have hs1B_other : ∀ r, r ≠ k → (normalizeRow n k t).B r = t.B r := by
    intro r hr
    rw [normalizeRow_B, if_neg hr]
  have hs1colk : ∀ r, k + 1 ≤ r → r < n → (normalizeRow n k t).A r k = 2 := by
    intro r h1 h2
    rw [hs1A_other r k (by omega)]
    exact hcol r (by omega) h2
  refine ⟨?_, ?_, ?_, ?_, ?_⟩
  · intro r c hr hc hrc
    rw [elimBelow_A, if_neg (by omega : ¬ (k + 1 ≤ r ∧ r < n))]
    rcases Nat.lt_succ_iff_lt_or_eq.mp hr with h | rfl
    · rw [hs1A_other r c (by omega)]
      exact hA1 r c h hc hrc
    · exact hs1row c hrc hc
  · intro r c hc hcr hrn
    rw [elimBelow_A]
    by_cases hrow : k + 1 ≤ r ∧ r < n
    · rw [if_pos hrow]
      by_cases hck : c = k
      · rw [if_pos hck]
      · rw [if_neg hck, if_neg (by omega : ¬ (k + 1 ≤ c ∧ c < n))]
        rw [hs1A_other r c (by omega)]
        exact hA0 r c (by omega) hcr hrn
    · rw [if_neg hrow]
      have hck : c < k := by omega
      rcases Nat.lt_or_ge r k with h | h
      · rw [hs1A_other r c (by omega)]
        exact hA0 r c hck hcr hrn
      · have hrk : r = k := by omega
        rw [hrk, hs1A_low c hck]
        exact hA0 k c hck (by omega) hk
  · intro r c hr hc hrn hcn
    rw [elimBelow_A, if_pos ⟨hr, hrn⟩, if_neg (by omega : ¬ c = k), if_pos ⟨hc, hcn⟩]
    rw [hs1A_other r c (by omega), hs1A_other r k (by omega), hs1row c (by omega) hcn]
    rw [hA2 r c (by omega) (by omega) hrn hcn, hcol r (by omega) hrn]
    ring
  · intro r hr
    rw [elimBelow_B, if_neg (by omega : ¬ (k + 1 ≤ r ∧ r < n))]
    rcases Nat.lt_succ_iff_lt_or_eq.mp hr with h | rfl
    · rw [hs1B_other r (by omega)]
      exact hB1 r h
    · exact hs1Bk
  · intro r h1 h2
    rw [elimBelow_B, if_pos ⟨h1, h2⟩, hs1B_other r (by omega),
      hs1colk r h1 h2, hs1Bk, hB2 r (by omega) h2]
    rcases Nat.eq_zero_or_pos k with rfl | hk1
    · norm_num
    · rw [if_neg (by omega : ¬ k = 0), Nat.max_eq_left hk1,
        Nat.max_eq_left (by omega : 1 ≤ k + 1)]
      push_cast
      ring

theorem gauss_values (n : ℕ) (s0 : SysState) :
    ∃ s', computeGauss n (initMatrix n s0) = some s' ∧
      (∀ r c, r < n → c < n → r ≤ c → s'.A r c = 1) ∧
      (∀ r c, c < r → r < n → s'.A r c = 0) ∧
      (∀ r, r < n → s'.B r = if r = 0 then (0 : ℚ) else 1 / 2) := by
  have key := gaussAux_total n
    (fun k t =>
      (∀ r c, r < k → c < n → r ≤ c → t.A r c = 1) ∧
      (∀ r c, c < k → c < r → r < n → t.A r c = 0) ∧
      (∀ r c, k ≤ r → k ≤ c → r < n → c < n →
        t.A r c = 2 * ((min r c : ℚ) - (k : ℚ) + 1)) ∧
      (∀ r, r < k → t.B r = if r = 0 then (0 : ℚ) else 1 / 2) ∧
      (∀ r, k ≤ r → r < n → t.B r = (r : ℚ) - ((max k 1 : ℕ) : ℚ) + 1))
    ?_ n 0 (initMatrix n s0) (by omega) ?_
  · obtain ⟨s', heq, h1, h2, _, h4, _⟩ := key
    refine ⟨s', ?_, ?_, ?_, ?_⟩
    · rw [computeGauss, List.range_eq_range']
      exact heq
    · intro r c hr hc hrc
      exact h1 r c (by omega) hc hrc
    · intro r c hcr hrn
      exact h2 r c (by omega) hcr hrn
    · intro r hr
      exact h4 r (by omega)
  · intro k t hk hP
    obtain ⟨hA1, hA0, hA2, hB1, hB2⟩ := hP
    obtain ⟨s1, hgp, c1, c2, c3, c4, c5⟩ := gauss_step_values n k t hk hA1 hA0 hA2 hB1 hB2
    refine ⟨s1, hgp, c1, c2, ?_, c4, ?_⟩
    · intro r c h1 h2 h3 h4
      rw [c3 r c h1 h2 h3 h4]
      push_cast
      ring
    · intro r h1 h2
      rw [c5 r h1 h2]
  · refine ⟨fun r c hr _ _ => absurd hr (Nat.not_lt_zero r),
      fun r c hc _ _ => absurd hc (Nat.not_lt_zero c),
      ?_, fun r hr => absurd hr (Nat.not_lt_zero r), ?_⟩
    · intro r c _ _ hrn hcn
      show (initMatrix n s0).A r c = _
      unfold initMatrix
      dsimp only
      rw [if_pos ⟨hrn, hcn⟩]
      by_cases hcr : c < r
      · rw [if_pos hcr, min_eq_right (by exact_mod_cast le_of_lt hcr : (c : ℚ) ≤ (r : ℚ))]
        push_cast
        ring
      · rw [if_neg hcr, min_eq_left (by exact_mod_cast le_of_not_lt hcr : (r : ℚ) ≤ (c : ℚ))]
        push_cast
        ring
    · intro r _ hrn
      show (initMatrix n s0).B r = _
      unfold initMatrix
      dsimp only
      rw [if_pos hrn, Nat.max_eq_right (by omega : 0 ≤ 1)]
      push_cast
      ring

theorem solve_values (n : ℕ) (s' : SysState) (hn : 2 ≤ n)
    (h1 : ∀ r c, r < n → c < n → r ≤ c → s'.A r c = 1)
    (h4 : ∀ r, r < n → s'.B r = if r = 0 then (0 : ℚ) else 1 / 2) (C0 : ℕ → ℚ) :
    ∀ r, r < n → solveGauss n s' C0 r = expectedVal n r := by
  have hlastval : solveGauss n s' C0 (n - 1) = expectedVal n (n - 1) := by
    rw [solveGauss_last, h4 (n - 1) (by omega)]
    have hne : ¬ (n - 1 = 0) := by omega
    simp [expectedVal, hne]
  have key : ∀ (d r : ℕ), r < n → n - 1 - r ≤ d →
      solveGauss n s' C0 r = expectedVal n r := by
    intro d
    induction d with
    | zero =>
      intro r hr hd
      rw [show r = n - 1 by omega]
      exact hlastval
    | succ d ih =>
      intro r hr hd
      by_cases hlast : r = n - 1
      · rw [hlast]
        exact hlastval
      · have hrlt : r < n - 1 := by omega
        rw [solveGauss_row_sum n s' C0 r hrlt]
        have hsum : ∑ t ∈ Finset.range (n - 1 - r),
            s'.A r (r + 1 + t) * solveGauss n s' C0 (r + 1 + t) = 1 / 2 := by
          have hcong : ∀ t ∈ Finset.range (n - 1 - r),
              s'.A r (r + 1 + t) * solveGauss n s' C0 (r + 1 + t) =
                if t = n - 2 - r then (1 : ℚ) / 2 else 0 := by
            intro t ht
            rw [Finset.mem_range] at ht
            have hq : r + 1 + t < n := by omega
            rw [h1 r (r + 1 + t) (by omega) hq (by omega),
              ih (r + 1 + t) hq (by omega), one_mul, expectedVal,
              if_neg (by omega : ¬ r + 1 + t = 0)]
            by_cases he : t = n - 2 - r
            · rw [if_pos (by omega : r + 1 + t = n - 1), if_pos he]
            · rw [if_neg (by omega : ¬ r + 1 + t = n - 1), if_neg he]
          rw [Finset.sum_congr rfl hcong,
            Finset.sum_ite_eq' (Finset.range (n - 1 - r)) (n - 2 - r) (fun _ => (1 : ℚ) / 2),
            if_pos (Finset.mem_range.mpr (by omega))]
        rw [hsum, h4 r (by omega)]
        by_cases hr0 : r = 0
        · rw [if_pos hr0, expectedVal, if_pos hr0]
          norm_num
        · rw [if_neg hr0, expectedVal, if_neg hr0, if_neg (by omega : ¬ r = n - 1)]
          norm_num
  intro r hr
  exact key n r hr (by omega)

/-! ## The claims -/

/-- C1: for every dimension `n ≥ 2`, running the full pipeline
(initialization with `A[i][j] = 2*(j+1)` when `j < i` else `2*(i+1)` and
`B[i] = i`, then elimination, then back-substitution) produces a solution
vector with `x[0] = -0.5`, `x[n-1] = 0.5` and `x[i] = 0` for every
`0 < i < n-1`, exactly; in particular `main`'s exact-equality
verification loop passes. -/
theorem claim_C1_pipeline_values (n : ℕ) (hn : 2 ≤ n) (s0 : SysState) (C0 : ℕ → ℚ) :
    ∃ s', computeGauss n (initMatrix n s0) = some s' ∧
      solveGauss n s' C0 0 = -(1 / 2) ∧
      solveGauss n s' C0 (n - 1) = 1 / 2 ∧
      (∀ i, 0 < i → i < n - 1 → solveGauss n s' C0 i = 0) ∧
      verifyPasses n (solveGauss n s' C0) := by
  obtain ⟨s', heq, h1, _, h4⟩ := gauss_values n s0
  have hv := solve_values n s' hn h1 h4 C0
  refine ⟨s', heq, ?_, ?_, ?_, hv⟩
  · rw [hv 0 (by omega), expectedVal, if_pos rfl]
  · rw [hv (n - 1) (by omega), expectedVal, if_neg (by omega : ¬ n - 1 = 0), if_pos rfl]
  · intro i h0 hi
    rw [hv i (by omega), expectedVal, if_neg (by omega : ¬ i = 0),
      if_neg (by omega : ¬ i = n - 1)]

theorem claim_C1_witness :
    2 ≤ 3 ∧
    ∃ s', computeGauss 3 (initMatrix 3 zeroState) = some s' ∧
      solveGauss 3 s' (fun _ => 0) 0 = -(1 / 2) ∧
      solveGauss 3 s' (fun _ => 0) (3 - 1) = 1 / 2 ∧
      (∀ i, 0 < i → i < 3 - 1 → solveGauss 3 s' (fun _ => 0) i = 0) ∧
      verifyPasses 3 (solveGauss 3 s' (fun _ => 0)) :=
  ⟨by norm_num, claim_C1_pipeline_values 3 (by norm_num) zeroState (fun _ => 0)⟩

/-- C2: whenever the elimination engine completes (`computeGauss`
returns a state rather than taking the singular exit) on an `n × n`
system with `n ≥ 1`, the matrix is exactly upper-triangular with unit
diagonal: `A[i][j] = 0` for `j < i < n` and `A[i][i] = 1` for `i < n`. -/
theorem claim_C2_upper_triangular (n : ℕ) (s s' : SysState) (hn : 1 ≤ n)
    (h : computeGauss n s = some s') :
    (∀ i j, j < i → i < n → s'.A i j = 0) ∧ ∀ i, i < n → s'.A i i = 1 := by
  have key := gaussAux_induct n
    (fun k t => (∀ i j, j < k → j < i → i < n → t.A i j = 0) ∧ ∀ i, i < k → t.A i i = 1)
    (fun k t s1 hk hP hgp => gauss_step_triangular n k t s1 hk hP hgp)
    n 0 s s' (by omega)
    ⟨fun i j hj _ _ => absurd hj (Nat.not_lt_zero j),
     fun i hi => absurd hi (Nat.not_lt_zero i)⟩
  rw [computeGauss, List.range_eq_range'] at h
  have hout := key h
  exact ⟨fun i j hji hin => hout.1 i j (by omega) hji hin, fun i hi => hout.2 i (by omega)⟩

theorem claim_C2_witness :
    1 ≤ 2 ∧
    ∃ s', computeGauss 2 (initMatrix 2 zeroState) = some s' ∧
      (∀ i j, j < i → i < 2 → s'.A i j = 0) ∧ ∀ i, i < 2 → s'.A i i = 1 := by
  have hs : (computeGauss 2 (initMatrix 2 zeroState)).isSome = true := by decide
  refine ⟨by norm_num, (computeGauss 2 (initMatrix 2 zeroState)).get hs,
    (Option.some_get hs).symm, ?_⟩
  exact claim_C2_upper_triangular 2 (initMatrix 2 zeroState) _ (by norm_num)
    (Option.some_get hs).symm

/-- C3: at any pivot step `k` reached by the elimination loop, if the
entries of column `k` in rows `k .. n-1` are all exactly zero, the run
takes the singular-matrix exit (`getPivot` returns `none`, modelling the
report-and-`exit(-1)` path) and the whole elimination returns `none`:
no solution vector is ever produced. -/
theorem claim_C3_singular_exit (n k : ℕ) (s0 sk : SysState) (hk : k < n)
    (hrun : gaussAux n s0 (List.range' 0 k) = some sk)
    (hzero : ∀ r, k ≤ r → r < n → sk.A r k = 0) :
    getPivot n k sk = none ∧ computeGauss n s0 = none := by
  have hnone := getPivot_none_of_zero_col n k sk hk hzero
  refine ⟨hnone, ?_⟩
  rw [computeGauss, List.range_eq_range']
  have hsplit : List.range' 0 k ++ List.range' k (n - k) = List.range' 0 n := by
    have h := List.range'_append_1 0 k (n - k)
    rw [Nat.zero_add] at h
    rw [h, show n - k + k = n by omega]
  rw [← hsplit, gaussAux_append, hrun]
  show gaussAux n sk (List.range' k (n - k)) = none
  rw [show n - k = (n - k - 1) + 1 by omega, List.range'_succ]
  show (match getPivot n k sk with
        | none => none
        | some s1 => gaussAux n (elimBelow n k s1) (List.range' (k + 1) (n - k - 1))) = none
  rw [hnone]

theorem claim_C3_witness :
    0 < 2 ∧
    gaussAux 2 zeroState (List.range' 0 0) = some zeroState ∧
    (∀ r, 0 ≤ r → r < 2 → zeroState.A r 0 = 0) ∧
    (getPivot 2 0 zeroState = none ∧ computeGauss 2 zeroState = none) :=
  ⟨by norm_num, rfl, fun r _ _ => rfl,
    claim_C3_singular_exit 2 0 zeroState zeroState (by norm_num) rfl (fun r _ _ => rfl)⟩

/-- C4 counterexample: at `n = 1` the pipeline does produce the solution
`x = [0]`, but `main`'s verification loop checks index `0` against the
`n == 0` branch first and therefore expects `-0.5` (not `0`), so the
verification fails; the claim that the expected check reconciles to `0`
and the run completes successfully is false on the code. -/
theorem claim_C4_counterexample :
    optionHolds (computeGauss 1 (initMatrix 1 zeroState)) (fun s =>
      solveGauss 1 s (fun _ => 0) 0 = 0 ∧
      expectedVal 1 0 = -(1 / 2) ∧
      ¬ verifyPasses 1 (solveGauss 1 s (fun _ => 0))) := by
  decide

/-- C4 amended: for `n = 1` the pipeline on the fixed initialization rule
(`A = [[2]]`, `B = [0]`) produces the solution `x = [0]`, but the
program's post-solve verification checks the single index against
`-0.5` (the `n == 0` branch takes precedence over the last-index
branch), so `x[0]` differs from the expected value and the assertion
fails: the run aborts instead of completing successfully. -/
theorem claim_C4_amended :
    (initMatrix 1 zeroState).A 0 0 = 2 ∧ (initMatrix 1 zeroState).B 0 = 0 ∧
    optionHolds (computeGauss 1 (initMatrix 1 zeroState)) (fun s =>
      solveGauss 1 s (fun _ => 0) 0 = 0 ∧
      solveGauss 1 s (fun _ => 0) 0 ≠ expectedVal 1 0) := by
  decide

/-- C5: for every step `k < n`, the pivot search over rows `k .. n-1` of
column `k` returns a row of maximal absolute value, the first occurrence
winning ties (every earlier candidate is strictly smaller); a row
carrying a unique maximum is therefore always the one selected.  When
the maximum is nonzero and the selected row differs from `k`, `getPivot`
swaps the two rows together with their right-hand-side entries
(`swapRows`) before normalizing, and after any successful call
`A[k][k] = 1`. -/
theorem claim_C5_pivot_selection (nsize k : ℕ) (s : SysState) (hk : k < nsize)
    (ir : ℕ) (bg : ℚ) (hfp : findPivot nsize k s.A = (ir, bg)) :
    (k ≤ ir ∧ ir < nsize) ∧
    (∀ r, k ≤ r → r < nsize → ABS (s.A r k) ≤ ABS (s.A ir k)) ∧
    (∀ r, k ≤ r → r < ir → ABS (s.A r k) < ABS (s.A ir k)) ∧
    (∀ rstar, k ≤ rstar → rstar < nsize →
      (∀ r, k ≤ r → r < nsize → r ≠ rstar → ABS (s.A r k) < ABS (s.A rstar k)) →
      ir = rstar) ∧
    (bg ≠ 0 → ir ≠ k →
      getPivot nsize k s = some (normalizeRow nsize k (swapRows ir k s))) ∧
    (∀ s', getPivot nsize k s = some s' → s'.A k k = 1) := by
  obtain ⟨h1, h2, h3, h4, h5⟩ := findPivot_spec nsize k s.A hk ir bg hfp
  refine ⟨⟨h1, h2⟩, ?_, ?_, ?_, ?_, ?_⟩
  · intro r a b
    rw [← h3]
    exact h4 r a b
  · intro r a b
    rw [← h3]
    exact h5 r a b
  · intro rs ha hb hunique
    by_contra hne
    have hlt := hunique ir h1 h2 hne
    have hle := h4 rs ha hb
    rw [h3] at hle
    exact absurd (lt_of_le_of_lt hle hlt) (lt_irrefl _)
  · intro hbg hirk
    rw [getPivot_eq, hfp]
    dsimp only
    rw [if_neg hbg, if_pos hirk]
  · exact fun s' h => getPivot_isSome_diag nsize k s s' h

theorem claim_C5_witness :
    0 < 2 ∧ findPivot 2 0 (initMatrix 2 zeroState).A = (0, 2) ∧
    ((0 ≤ 0 ∧ 0 < 2) ∧
     (∀ r, 0 ≤ r → r < 2 →
        ABS ((initMatrix 2 zeroState).A r 0) ≤ ABS ((initMatrix 2 zeroState).A 0 0)) ∧
     (∀ r, 0 ≤ r → r < 0 →
        ABS ((initMatrix 2 zeroState).A r 0) < ABS ((initMatrix 2 zeroState).A 0 0)) ∧
     (∀ rstar, 0 ≤ rstar → rstar < 2 →
       (∀ r, 0 ≤ r → r < 2 → r ≠ rstar →
         ABS ((initMatrix 2 zeroState).A r 0) < ABS ((initMatrix 2 zeroState).A rstar 0)) →
       0 = rstar) ∧
     ((2 : ℚ) ≠ 0 → 0 ≠ 0 →
       getPivot 2 0 (initMatrix 2 zeroState) =
         some (normalizeRow 2 0 (swapRows 0 0 (initMatrix 2 zeroState)))) ∧
     (∀ s', getPivot 2 0 (initMatrix 2 zeroState) = some s' → s'.A 0 0 = 1)) :=
  ⟨by norm_num, by decide,
    claim_C5_pivot_selection 2 0 (initMatrix 2 zeroState) (by norm_num) 0 2 (by decide)⟩

/-- C6: at every pivot step `k`, the elimination engine updates each row
`j` with `k < j < n` by taking the factor `f = A[j][k]`, assigning
`A[j][k] = 0` outright, replacing `A[j][c]` with `A[j][c] - f * A[k][c]`
for every column `k < c < n`, and replacing `B[j]` with
`B[j] - f * B[k]`. -/
theorem claim_C6_elimination_update (nsize k j : ℕ) (s : SysState)
    (hj1 : k + 1 ≤ j) (hj2 : j < nsize) :
    (elimBelow nsize k s).A j k = 0 ∧
    (∀ c, k + 1 ≤ c → c < nsize →
      (elimBelow nsize k s).A j c = s.A j c - s.A j k * s.A k c) ∧
    (elimBelow nsize k s).B j = s.B j - s.A j k * s.B k := by
  refine ⟨?_, ?_, ?_⟩
  · rw [elimBelow_A, if_pos ⟨hj1, hj2⟩, if_pos rfl]
  · intro c h1 h2
    rw [elimBelow_A, if_pos ⟨hj1, hj2⟩, if_neg (by omega : ¬ c = k), if_pos ⟨h1, h2⟩]
  · rw [elimBelow_B, if_pos ⟨hj1, hj2⟩]

theorem claim_C6_witness :
    0 + 1 ≤ 1 ∧ 1 < 2 ∧
    ((elimBelow 2 0 (initMatrix 2 zeroState)).A 1 0 = 0 ∧
     (∀ c, 0 + 1 ≤ c → c < 2 →
       (elimBelow 2 0 (initMatrix 2 zeroState)).A 1 c =
         (initMatrix 2 zeroState).A 1 c -
           (initMatrix 2 zeroState).A 1 0 * (initMatrix 2 zeroState).A 0 c) ∧
     (elimBelow 2 0 (initMatrix 2 zeroState)).B 1 =
       (initMatrix 2 zeroState).B 1 -
         (initMatrix 2 zeroState).A 1 0 * (initMatrix 2 zeroState).B 0) :=
  ⟨by norm_num, by norm_num,
    claim_C6_elimination_update 2 0 1 (initMatrix 2 zeroState) (by norm_num) (by norm_num)⟩

/-- C7: for every `n ≥ 1`, back-substitution sets `x[n-1] = B[n-1]` and
computes every earlier row as
`x[row] = B[row] - ∑ A[row][col] * x[col]` over the columns
`row < col < n` (the code realizes the sum by initializing
`x[row] = B[row]` and subtracting the products for `col = n-1` down to
`row+1`). -/
theorem claim_C7_back_substitution (nsize : ℕ) (hn : 1 ≤ nsize) (s : SysState)
    (C0 : ℕ → ℚ) :
    solveGauss nsize s C0 (nsize - 1) = s.B (nsize - 1) ∧
    ∀ row, row < nsize - 1 →
      solveGauss nsize s C0 row =
        s.B row - ∑ col ∈ Finset.Ico (row + 1) nsize,
          s.A row col * solveGauss nsize s C0 col := by
  refine ⟨solveGauss_last nsize s C0, ?_⟩
  intro row hrow
  rw [solveGauss_row_sum nsize s C0 row hrow]
  congr 1
  rw [Finset.sum_Ico_eq_sum_range, show nsize - (row + 1) = nsize - 1 - row by omega]

theorem claim_C7_witness :
    1 ≤ 2 ∧
    (solveGauss 2 (initMatrix 2 zeroState) (fun _ => 0) (2 - 1) =
       (initMatrix 2 zeroState).B (2 - 1) ∧
     ∀ row, row < 2 - 1 →
       solveGauss 2 (initMatrix 2 zeroState) (fun _ => 0) row =
         (initMatrix 2 zeroState).B row -
           ∑ col ∈ Finset.Ico (row + 1) 2,
             (initMatrix 2 zeroState).A row col *
               solveGauss 2 (initMatrix 2 zeroState) (fun _ => 0) col) :=
  ⟨by norm_num, claim_C7_back_substitution 2 (by norm_num) (initMatrix 2 zeroState)
    (fun _ => 0)⟩

/-- C8: back-substitution reads but never writes the coefficient matrix
or the right-hand-side vector: running `solveGauss` on the whole global
state leaves every entry `A[i][j]` and every entry `B[i]` exactly as it
was before the call; only the solution buffer `C` is written. -/
theorem claim_C8_solve_frame (nsize : ℕ) (hn : 1 ≤ nsize) (g : GlobState) :
    (∀ i j, (solveGaussG nsize g).sys.A i j = g.sys.A i j) ∧
    ∀ i, (solveGaussG nsize g).sys.B i = g.sys.B i := by
  have h : (solveGaussG nsize g).sys = g.sys := by
    unfold solveGaussG
    rw [solveRowsG_sys]
  exact ⟨fun i j => by rw [h], fun i => by rw [h]⟩

theorem claim_C8_witness :
    1 ≤ 1 ∧
    ((∀ i j, (solveGaussG 1 ⟨zeroState, fun _ => 0⟩).sys.A i j =
        (⟨zeroState, fun _ => 0⟩ : GlobState).sys.A i j) ∧
     ∀ i, (solveGaussG 1 ⟨zeroState, fun _ => 0⟩).sys.B i =
        (⟨zeroState, fun _ => 0⟩ : GlobState).sys.B i) :=
  ⟨by norm_num, claim_C8_solve_frame 1 (by norm_num) ⟨zeroState, fun _ => 0⟩⟩

/-- C9: swapping rows `a` and `b` (the matrix rows together with the
matching right-hand-side entries) twice restores the whole system state
exactly: the row swap is an involution. -/
theorem claim_C9_swap_involution (a b : ℕ) (s : SysState) :
    swapRows a b (swapRows a b s) = s := by
  ext i j
  · show (swapRows a b (swapRows a b s)).A i j = s.A i j
    rw [swapRows_A]
    by_cases hia : i = a
    · rw [if_pos hia, swapRows_A]
      by_cases hba : b = a
      · rw [if_pos hba, hia, hba]
      · rw [if_neg hba, if_pos rfl, hia]
    · rw [if_neg hia]
      by_cases hib : i = b
      · rw [if_pos hib, swapRows_A, if_pos rfl, hib]
      · rw [if_neg hib, swapRows_A, if_neg hia, if_neg hib]
  · show (swapRows a b (swapRows a b s)).B i = s.B i
    rw [swapRows_B]
    by_cases hia : i = a
    · rw [if_pos hia, swapRows_B]
      by_cases hba : b = a
      · rw [if_pos hba, hia, hba]
      · rw [if_neg hba, if_pos rfl, hia]
    · rw [if_neg hia]
      by_cases hib : i = b
      · rw [if_pos hib, swapRows_B, if_pos rfl, hib]
      · rw [if_neg hib, swapRows_B, if_neg hia, if_neg hib]

/-- C10: the argument loop of `main` maps a `-s <size>` flag with a
positive value to that dimension, rejects a non-positive value with the
warning message while keeping the default `1024`, keeps `1024` when no
flag is given, and aborts (`assert(0)`, before any solving occurs) on
any unrecognized flag. -/
theorem claim_C10_cli_parsing :
    (∀ v : ℤ, 0 < v → parseArgs [CLIEvent.sizeFlag v] = some (v.toNat, [])) ∧
    (∀ v : ℤ, v ≤ 0 → parseArgs [CLIEvent.sizeFlag v] =
      some (1024, ["  -s is negative... using 1024"])) ∧
    parseArgs [] = some (1024, []) ∧
    (∀ evs, CLIEvent.unknownFlag ∈ evs → parseArgs evs = none) ∧
    (∀ evs, parseArgs evs = none → mainSolve evs = none) := by
  refine ⟨?_, ?_, rfl, ?_, ?_⟩
  · intro v hv
    show (if v > 0 then parseLoop [] v.toNat []
          else parseLoop [] 1024 ([] ++ ["  -s is negative... using " ++ toString 1024])) = _
    rw [if_pos hv]
    rfl
  · intro v hv
    show (if v > 0 then parseLoop [] v.toNat []
          else parseLoop [] 1024 ([] ++ ["  -s is negative... using " ++ toString 1024])) = _
    rw [if_neg (by omega : ¬ v > 0)]
    rfl
  · intro evs h
    exact parseLoop_none_of_unknown evs 1024 [] h
  · intro evs h
    unfold mainSolve
    rw [h]

theorem claim_C10_witness :
    parseArgs [CLIEvent.sizeFlag 5] = some ((5 : ℤ).toNat, []) ∧
    parseArgs [CLIEvent.sizeFlag (-3)] = some (1024, ["  -s is negative... using 1024"]) ∧
    parseArgs [CLIEvent.unknownFlag] = none ∧
    mainSolve [CLIEvent.unknownFlag] = none :=
  ⟨claim_C10_cli_parsing.1 5 (by norm_num),
   claim_C10_cli_parsing.2.1 (-3) (by norm_num),
   claim_C10_cli_parsing.2.2.2.1 [CLIEvent.unknownFlag] (List.mem_cons_self _ _),
   claim_C10_cli_parsing.2.2.2.2 [CLIEvent.unknownFlag]
     (claim_C10_cli_parsing.2.2.2.1 [CLIEvent.unknownFlag] (List.mem_cons_self _ _))⟩
